import Mathlib

/-!
Verification of the automaker run-orchestration core against its
natural-language specification.  The definitions below are shallow
embeddings of the TypeScript sources:

* `src/libs/utils/src/stream-processor.ts` (stream normalizer),
* the `PlanApprovalService` class (plan approval gate),
* `src/libs/prompts/src/planning.ts` (task parser),
* `src/apps/server/src/services/auto-mode/worktree-manager.ts`
  (worktree resolver).

Asynchronous provider streams are embedded as finite lists of messages;
handler callbacks are embedded as presence flags plus an explicit event
trace recording every invocation in order; promises are embedded as
fresh identifiers plus a settlement log.
-/

set_option maxHeartbeats 1000000

/-! ### Stream processor (`stream-processor.ts`) -/

/-- Content blocks of an assistant message, after `ContentBlock` in
`@automaker/types`: `text | tool_use | thinking | tool_result`, carrying
the fields the stream processor reads (`text`, `name`/`input`,
`thinking`).  The opaque `input` payload is embedded as a `String`. -/
inductive ContentBlock where
  | text (text : String)
  | tool_use (name : String) (input : String)
  | thinking (thinking : String)
  | tool_result
deriving DecidableEq

/-- Provider messages, after `ProviderMessage`: the stream processor
distinguishes `assistant` messages (with optional `message.content`),
`error` messages (optional `error` string), `result` messages
(`subtype`, optional `result` string); every other message type is
ignored and embedded as `other`. -/
inductive ProviderMessage where
  | assistant (content : Option (List ContentBlock))
  | error (error : Option String)
  | result (subtype : String) (result : Option String)
  | other
deriving DecidableEq

/-- `StreamHandlers`: each optional callback is embedded as a presence
flag; invocations are recorded in the event trace. -/
structure StreamHandlers where
  onText : Bool
  onToolUse : Bool
  onError : Bool
  onComplete : Bool
  onThinking : Bool
deriving DecidableEq

/-- The empty handler set `{}`. -/
def emptyHandlers : StreamHandlers := ⟨false, false, false, false, false⟩

/-- The handler set with every callback registered. -/
def allHandlers : StreamHandlers := ⟨true, true, true, true, true⟩

/-- One recorded handler invocation. -/
inductive HEvent where
  | text (s : String)
  | toolUse (name : String) (input : String)
  | error (s : String)
  | complete (s : String)
  | thinking (s : String)
deriving DecidableEq

/-- `StreamResult` returned by `processStream`. -/
structure StreamResult where
  text : String
  success : Bool
  error : Option String
  result : Option String
deriving DecidableEq

/-- `msg.error || 'Unknown error'`: a missing or empty (falsy) error
string is replaced by the default. -/
def errorTextOf : Option String → String
  | some s => if s = "" then "Unknown error" else s
  | none => "Unknown error"

/-- `processContentBlock`: text blocks with truthy `text` append to the
accumulator and invoke `onText`; `tool_use` blocks with truthy `name`
invoke `onToolUse`; `thinking` blocks with truthy `thinking` invoke
`onThinking`; `tool_result` blocks are ignored.  Returns the appended
text and the events emitted. -/
def processContentBlock (handlers : StreamHandlers) : ContentBlock → String × List HEvent
  | .text t =>
      if t = "" then ("", [])
      else (t, if handlers.onText then [HEvent.text t] else [])
  | .tool_use name input =>
      ("", if name ≠ "" ∧ handlers.onToolUse = true then [HEvent.toolUse name input] else [])
  | .thinking t =>
      ("", if t ≠ "" ∧ handlers.onThinking = true then [HEvent.thinking t] else [])
  | .tool_result => ("", [])

/-- The inner `for (const block of msg.message.content)` loop. -/
def processBlocks (handlers : StreamHandlers) : List ContentBlock → String × List HEvent
  | [] => ("", [])
  | b :: bs =>
      let pb := processContentBlock handlers b
      let r := processBlocks handlers bs
      (pb.1 ++ r.1, pb.2 ++ r.2)

/-- The `for await (const msg of stream)` loop of `processStream`, with
the accumulated text and the captured result message threaded through.
An `error` message sets the error text, emits `onError` and throws
(`Except.error`); a `result` message with subtype `success` captures the
result text and emits `onComplete`; all other messages are either
assistant content or ignored.  On normal termination the accumulated
`StreamResult` is returned with `success := true` and no error (the
internal failure flags are only ever set on the throwing path, which
never returns). -/
def processStreamAux (handlers : StreamHandlers) (acc : String) (res : Option String) :
    List ProviderMessage → Except String StreamResult × List HEvent
  | [] => (Except.ok ⟨acc, true, none, res⟩, [])
  | msg :: rest =>
      match msg with
      | .assistant (some blocks) =>
          let pb := processBlocks handlers blocks
          let r := processStreamAux handlers (acc ++ pb.1) res rest
          (r.1, pb.2 ++ r.2)
      | .assistant none => processStreamAux handlers acc res rest
      | .error e =>
          let m := errorTextOf e
          (Except.error m, if handlers.onError then [HEvent.error m] else [])
      | .result subtype r =>
          if subtype = "success" then
            let rm := r.getD ""
            let r2 := processStreamAux handlers acc (some rm) rest
            (r2.1, (if handlers.onComplete then [HEvent.complete rm] else []) ++ r2.2)
          else processStreamAux handlers acc res rest
      | .other => processStreamAux handlers acc res rest

/-- `processStream(stream, handlers)`: the embedded stream is a finite
message list; the outcome is either the returned `StreamResult` or the
thrown error, together with the trace of handler invocations. -/
def processStream (msgs : List ProviderMessage) (handlers : StreamHandlers) :
    Except String StreamResult × List HEvent :=
  processStreamAux handlers "" none msgs

/-- `collectStreamText(stream)`: runs `processStream` with no handlers
and projects out the text, propagating a thrown error. -/
def collectStreamText (msgs : List ProviderMessage) : Except String String :=
  match (processStream msgs emptyHandlers).1 with
  | Except.ok r => Except.ok r.text
  | Except.error e => Except.error e

/-- The text carried by a content block, when it is a text block. -/
def textOfBlock : ContentBlock → Option String
  | ContentBlock.text t => some t
  | _ => none

/-- The text of every `text` content block of the stream, in emission
order (including empty ones). -/
def textBlocksOf : List ProviderMessage → List String
  | [] => []
  | ProviderMessage.assistant (some blocks) :: rest =>
      blocks.filterMap textOfBlock ++ textBlocksOf rest
  | _ :: rest => textBlocksOf rest

/-- Concatenation of a list of strings in order. -/
def concatAll : List String → String
  | [] => ""
  | s :: rest => s ++ concatAll rest

/-- The payloads of the `onText` invocations of a trace, in order. -/
def textEventsOf : List HEvent → List String
  | [] => []
  | HEvent.text s :: rest => s :: textEventsOf rest
  | _ :: rest => textEventsOf rest

/-- Whether a message is an error message. -/
def isErrorMsg : ProviderMessage → Bool
  | ProviderMessage.error _ => true
  | _ => false

/-- Whether a message is a `result` message with subtype `success`. -/
def isSuccessResult : ProviderMessage → Bool
  | ProviderMessage.result st _ => if st = "success" then true else false
  | _ => false

/-- Whether an event is an `onComplete` invocation. -/
def isCompleteEvent : HEvent → Bool
  | HEvent.complete _ => true
  | _ => false

/-- The result message captured from the `result success` messages of a
list, starting from a given captured value (the last one wins). -/
def lastResultOf : List ProviderMessage → Option String → Option String
  | [], r => r
  | ProviderMessage.result st res :: rest, r =>
      lastResultOf rest (if st = "success" then some (res.getD "") else r)
  | _ :: rest, r => lastResultOf rest r

/-- The handler-invocation trace of a message list: the events of each
assistant message's blocks, `onComplete` for each successful result, and
processing stops at the first error message after emitting `onError`. -/
def eventsOf (handlers : StreamHandlers) : List ProviderMessage → List HEvent
  | [] => []
  | ProviderMessage.assistant (some blocks) :: rest =>
      (processBlocks handlers blocks).2 ++ eventsOf handlers rest
  | ProviderMessage.assistant none :: rest => eventsOf handlers rest
  | ProviderMessage.error e :: _ =>
      if handlers.onError then [HEvent.error (errorTextOf e)] else []
  | ProviderMessage.result st r :: rest =>
      if st = "success" then
        (if handlers.onComplete then [HEvent.complete (r.getD "")] else []) ++ eventsOf handlers rest
      else eventsOf handlers rest
  | ProviderMessage.other :: rest => eventsOf handlers rest

theorem strAppendEmpty (s : String) : s ++ "" = s := by
  cases s with
  | mk data => show String.mk (data ++ []) = String.mk data
               rw [List.append_nil]

theorem strAppendAssoc (a b c : String) : a ++ b ++ c = a ++ (b ++ c) := by
  cases a with
  | mk da =>
    cases b with
    | mk db =>
      cases c with
      | mk dc => show String.mk (da ++ db ++ dc) = String.mk (da ++ (db ++ dc))
                 rw [List.append_assoc]

/-- The event component of the stream processor is exactly `eventsOf`,
independently of the accumulator state. -/
theorem processStreamAux_events (handlers : StreamHandlers) (msgs : List ProviderMessage) :
    ∀ acc res, (processStreamAux handlers acc res msgs).2 = eventsOf handlers msgs := by
  induction msgs with
  | nil => intro acc res; rfl
  | cons m rest ih =>
    intro acc res
    cases m with
    | assistant content =>
      cases content with
      | some blocks => simp [processStreamAux, eventsOf, ih]
      | none => simp [processStreamAux, eventsOf, ih]
    | error e => simp [processStreamAux, eventsOf]
    | result st r =>
      by_cases h : st = "success" <;> simp [processStreamAux, eventsOf, h, ih]
    | other => simp [processStreamAux, eventsOf, ih]

/-- Concatenation distributes over list append. -/
theorem concatAll_append_eq (l1 l2 : List String) :
    concatAll (l1 ++ l2) = concatAll l1 ++ concatAll l2 := by
  induction l1 with
  | nil =>
    show concatAll l2 = "" ++ concatAll l2
    cases h : concatAll l2 with
    | mk d => show String.mk d = String.mk ([] ++ d); rw [List.nil_append]
  | cons s rest ih => simp [concatAll, ih, strAppendAssoc]

/-- The text accumulated by a block list is the concatenation of its
text blocks (empty text blocks contribute the empty string either way). -/
theorem processBlocks_text (handlers : StreamHandlers) (blocks : List ContentBlock) :
    (processBlocks handlers blocks).1 = concatAll (blocks.filterMap textOfBlock) := by
  induction blocks with
  | nil => rfl
  | cons b bs ihb =>
    cases b with
    | text t =>
      by_cases ht : t = "" <;>
        simp [processBlocks, processContentBlock, textOfBlock, ht, concatAll, ihb]
    | tool_use name input => simp [processBlocks, processContentBlock, textOfBlock, concatAll, ihb]
    | thinking t => simp [processBlocks, processContentBlock, textOfBlock, concatAll, ihb]
    | tool_result => simp [processBlocks, processContentBlock, textOfBlock, concatAll, ihb]

/-- On an error-free message list the stream processor returns normally,
with the accumulated text, `success = true`, no error and the captured
result message. -/
theorem processStreamAux_ok (handlers : StreamHandlers) (msgs : List ProviderMessage)
    (herr : ∀ m ∈ msgs, isErrorMsg m = false) :
    ∀ acc res, (processStreamAux handlers acc res msgs).1 =
      Except.ok ⟨acc ++ concatAll (textBlocksOf msgs), true, none, lastResultOf msgs res⟩ := by
  induction msgs with
  | nil => intro acc res; simp [processStreamAux, textBlocksOf, concatAll, lastResultOf,
             strAppendEmpty]
  | cons m rest ih =>
    have hrest : ∀ m ∈ rest, isErrorMsg m = false := fun m hm => herr m (List.mem_cons_of_mem _ hm)
    intro acc res
    cases m with
    | assistant content =>
      cases content with
      | some blocks =>
        simp only [processStreamAux, ih hrest, textBlocksOf, lastResultOf]
        rw [processBlocks_text, concatAll_append_eq, strAppendAssoc]
      | none => simp [processStreamAux, textBlocksOf, lastResultOf, ih hrest]
    | error e => exact absurd (herr _ (List.mem_cons_self _ _)) (by simp [isErrorMsg])
    | result st r =>
      by_cases h : st = "success" <;>
        simp [processStreamAux, textBlocksOf, lastResultOf, h, ih hrest]
    | other => simp [processStreamAux, textBlocksOf, lastResultOf, ih hrest]

theorem strEmptyAppend (s : String) : "" ++ s = s := by
  cases s with
  | mk data => show String.mk ([] ++ data) = String.mk data
               rw [List.nil_append]

/-- The sublist of nonempty strings, in order. -/
def nonemptyOnly : List String → List String
  | [] => []
  | s :: rest => if s = "" then nonemptyOnly rest else s :: nonemptyOnly rest

theorem nonemptyOnly_append (l1 l2 : List String) :
    nonemptyOnly (l1 ++ l2) = nonemptyOnly l1 ++ nonemptyOnly l2 := by
  induction l1 with
  | nil => rfl
  | cons s rest ih =>
    by_cases h : s = "" <;> simp [nonemptyOnly, h, ih]

theorem textEventsOf_append (a b : List HEvent) :
    textEventsOf (a ++ b) = textEventsOf a ++ textEventsOf b := by
  induction a with
  | nil => rfl
  | cons e rest ih => cases e <;> simp [textEventsOf, ih]

/-- A stream that returns normally contained no error message. -/
theorem processStreamAux_ok_no_error (handlers : StreamHandlers) (msgs : List ProviderMessage) :
    ∀ acc res r, (processStreamAux handlers acc res msgs).1 = Except.ok r →
      ∀ m ∈ msgs, isErrorMsg m = false := by
  induction msgs with
  | nil => intro acc res r _ m hm; exact absurd hm (List.not_mem_nil m)
  | cons m0 rest ih =>
    intro acc res r hok m hm
    cases m0 with
    | assistant content =>
      rcases List.mem_cons.mp hm with h | h
      · subst h; rfl
      · cases content with
        | some blocks =>
          exact ih (acc ++ (processBlocks handlers blocks).1) res r hok m h
        | none => exact ih acc res r hok m h
    | error e => exact absurd hok (by simp [processStreamAux])
    | result st rr =>
      rcases List.mem_cons.mp hm with h | h
      · subst h; rfl
      · by_cases hs : st = "success"
        · simp only [processStreamAux, hs, if_true] at hok
          exact ih acc (some (rr.getD "")) r hok m h
        · simp only [processStreamAux, hs, if_false] at hok
          exact ih acc res r hok m h
    | other =>
      rcases List.mem_cons.mp hm with h | h
      · subst h; rfl
      · exact ih acc res r hok m h

/-- At the first error message the stream processor throws the
(defaulted) error text, whatever follows. -/
theorem processStreamAux_error (handlers : StreamHandlers) (pre : List ProviderMessage)
    (e : Option String) (post : List ProviderMessage)
    (hpre : ∀ m ∈ pre, isErrorMsg m = false) :
    ∀ acc res, (processStreamAux handlers acc res
        (pre ++ ProviderMessage.error e :: post)).1 = Except.error (errorTextOf e) := by
  induction pre with
  | nil => intro acc res; rfl
  | cons m0 rest ih =>
    have hrest : ∀ m ∈ rest, isErrorMsg m = false :=
      fun m hm => hpre m (List.mem_cons_of_mem _ hm)
    intro acc res
    cases m0 with
    | assistant content =>
      cases content with
      | some blocks => simpa [processStreamAux] using ih hrest _ res
      | none => simpa [processStreamAux] using ih hrest acc res
    | error e0 => exact absurd (hpre _ (List.mem_cons_self _ _)) (by simp [isErrorMsg])
    | result st rr =>
      by_cases hs : st = "success" <;> simp [processStreamAux, hs, ih hrest]
    | other => simpa [processStreamAux] using ih hrest acc res

/-- The handler trace of an error-terminated stream: the events of the
error-free prefix, then `onError` (if registered); nothing after the
error message is consumed. -/
theorem eventsOf_append_error (handlers : StreamHandlers) (pre : List ProviderMessage)
    (e : Option String) (post : List ProviderMessage)
    (hpre : ∀ m ∈ pre, isErrorMsg m = false) :
    eventsOf handlers (pre ++ ProviderMessage.error e :: post) =
      eventsOf handlers pre ++
        (if handlers.onError then [HEvent.error (errorTextOf e)] else []) := by
  induction pre with
  | nil => simp [eventsOf]
  | cons m0 rest ih =>
    have hrest : ∀ m ∈ rest, isErrorMsg m = false :=
      fun m hm => hpre m (List.mem_cons_of_mem _ hm)
    cases m0 with
    | assistant content =>
      cases content with
      | some blocks => simp [eventsOf, ih hrest]
      | none => simp [eventsOf, ih hrest]
    | error e0 => exact absurd (hpre _ (List.mem_cons_self _ _)) (by simp [isErrorMsg])
    | result st rr =>
      by_cases hs : st = "success" <;> simp [eventsOf, hs, ih hrest]
    | other => simp [eventsOf, ih hrest]

/-- With `onText` registered, the `onText` payloads of a block list's
trace are exactly its nonempty text blocks, in order. -/
theorem textEventsOf_processBlocks (handlers : StreamHandlers)
    (hT : handlers.onText = true) (blocks : List ContentBlock) :
    textEventsOf (processBlocks handlers blocks).2 =
      nonemptyOnly (blocks.filterMap textOfBlock) := by
  induction blocks with
  | nil => rfl
  | cons b bs ih =>
    cases b with
    | text t =>
      by_cases ht : t = "" <;>
        simp [processBlocks, processContentBlock, textOfBlock, textEventsOf, nonemptyOnly,
          ht, hT, ih]
    | tool_use name input =>
      by_cases hc : name ≠ "" ∧ handlers.onToolUse = true <;>
        simp [processBlocks, processContentBlock, textOfBlock, textEventsOf, nonemptyOnly,
          hc, ih]
    | thinking t =>
      by_cases hc : t ≠ "" ∧ handlers.onThinking = true <;>
        simp [processBlocks, processContentBlock, textOfBlock, textEventsOf, nonemptyOnly,
          hc, ih]
    | tool_result =>
      simp [processBlocks, processContentBlock, textOfBlock, textEventsOf, nonemptyOnly, ih]

/-- With `onText` registered, the `onText` payloads of an error-free
stream's trace are exactly its nonempty text blocks, in order. -/
theorem textEventsOf_eventsOf (handlers : StreamHandlers) (hT : handlers.onText = true)
    (msgs : List ProviderMessage) (herr : ∀ m ∈ msgs, isErrorMsg m = false) :
    textEventsOf (eventsOf handlers msgs) = nonemptyOnly (textBlocksOf msgs) := by
  induction msgs with
  | nil => rfl
  | cons m0 rest ih =>
    have hrest : ∀ m ∈ rest, isErrorMsg m = false :=
      fun m hm => herr m (List.mem_cons_of_mem _ hm)
    cases m0 with
    | assistant content =>
      cases content with
      | some blocks =>
        simp only [eventsOf, textBlocksOf, textEventsOf_append, nonemptyOnly_append]
        rw [textEventsOf_processBlocks handlers hT, ih hrest]
      | none => simp [eventsOf, textBlocksOf, ih hrest]
    | error e => exact absurd (herr _ (List.mem_cons_self _ _)) (by simp [isErrorMsg])
    | result st rr =>
      by_cases hs : st = "success"
      · by_cases hc : handlers.onComplete <;>
          simp [eventsOf, textBlocksOf, textEventsOf, hs, hc, ih hrest]
      · simp [eventsOf, textBlocksOf, hs, ih hrest]
    | other => simp [eventsOf, textBlocksOf, ih hrest]

/-- Block processing never emits `onComplete`. -/
theorem processBlocks_no_complete (handlers : StreamHandlers) (blocks : List ContentBlock) :
    (processBlocks handlers blocks).2.filter isCompleteEvent = [] := by
  induction blocks with
  | nil => rfl
  | cons b bs ih =>
    cases b with
    | text t =>
      by_cases ht : t = "" <;>
        by_cases hT : handlers.onText <;>
          simp [processBlocks, processContentBlock, isCompleteEvent, ht, hT, ih]
    | tool_use name input =>
      by_cases hc : name ≠ "" ∧ handlers.onToolUse = true <;>
        simp [processBlocks, processContentBlock, isCompleteEvent, hc, ih]
    | thinking t =>
      by_cases hc : t ≠ "" ∧ handlers.onThinking = true <;>
        simp [processBlocks, processContentBlock, isCompleteEvent, hc, ih]
    | tool_result => simp [processBlocks, processContentBlock, ih]

/-- Without a successful result message, `onComplete` is never invoked. -/
theorem eventsOf_no_complete (handlers : StreamHandlers) (msgs : List ProviderMessage)
    (hres : ∀ m ∈ msgs, isSuccessResult m = false) :
    (eventsOf handlers msgs).filter isCompleteEvent = [] := by
  induction msgs with
  | nil => rfl
  | cons m0 rest ih =>
    have hrest : ∀ m ∈ rest, isSuccessResult m = false :=
      fun m hm => hres m (List.mem_cons_of_mem _ hm)
    cases m0 with
    | assistant content =>
      cases content with
      | some blocks =>
        simp [eventsOf, List.filter_append, processBlocks_no_complete, ih hrest]
      | none => simp [eventsOf, ih hrest]
    | error e => by_cases hc : handlers.onError <;> simp [eventsOf, isCompleteEvent, hc]
    | result st rr =>
      have : isSuccessResult (ProviderMessage.result st rr) = false :=
        hres _ (List.mem_cons_self _ _)
      have hs : ¬ st = "success" := by
        intro h; simp [isSuccessResult, h] at this
      simp [eventsOf, hs, ih hrest]
    | other => simp [eventsOf, ih hrest]

/-- Without a successful result message, no result text is captured. -/
theorem lastResultOf_none (msgs : List ProviderMessage) (r : Option String)
    (hres : ∀ m ∈ msgs, isSuccessResult m = false) : lastResultOf msgs r = r := by
  induction msgs generalizing r with
  | nil => rfl
  | cons m0 rest ih =>
    have hrest : ∀ m ∈ rest, isSuccessResult m = false :=
      fun m hm => hres m (List.mem_cons_of_mem _ hm)
    cases m0 with
    | assistant content => exact ih r hrest
    | error e => exact ih r hrest
    | result st rr =>
      have : isSuccessResult (ProviderMessage.result st rr) = false :=
        hres _ (List.mem_cons_self _ _)
      have hs : ¬ st = "success" := by
        intro h; simp [isSuccessResult, h] at this
      simp only [lastResultOf, if_neg hs]
      exact ih r hrest
    | other => exact ih r hrest

/-- C1 counterexample: a `text` content block whose `text` is the empty
string is a text content block of the stream, yet `processStream` (with
every handler registered) invokes `onText` zero times for it — the trace
is empty — so `onText` is not invoked "exactly once per text content
block". -/
theorem processStream_empty_text_block_counterexample :
    textBlocksOf [ProviderMessage.assistant (some [ContentBlock.text ""])] = [""] ∧
    processStream [ProviderMessage.assistant (some [ContentBlock.text ""])] allHandlers =
      (Except.ok ⟨"", true, none, none⟩, []) := by
  exact ⟨rfl, rfl⟩

/-- C1 (amended): whenever `processStream` returns normally and the
`onText` handler is registered, `onText` is invoked exactly once per
text content block with nonempty text, in block emission order (empty
text blocks trigger no callback and contribute nothing), the returned
`text` field is the concatenation of all text blocks in that order, and
`collectStreamText` on the same message sequence returns exactly this
concatenation. -/
theorem processStream_text_delivery (handlers : StreamHandlers) (msgs : List ProviderMessage)
    (r : StreamResult) (evs : List HEvent)
    (hT : handlers.onText = true)
    (hok : processStream msgs handlers = (Except.ok r, evs)) :
    r.text = concatAll (textBlocksOf msgs) ∧
    textEventsOf evs = nonemptyOnly (textBlocksOf msgs) ∧
    collectStreamText msgs = Except.ok (concatAll (textBlocksOf msgs)) := by
  have hfst : (processStreamAux handlers "" none msgs).1 = Except.ok r :=
    congrArg Prod.fst hok
  have herr : ∀ m ∈ msgs, isErrorMsg m = false :=
    processStreamAux_ok_no_error handlers msgs "" none r hfst
  have h1 := processStreamAux_ok handlers msgs herr "" none
  rw [strEmptyAppend] at h1
  have hr : r = ⟨concatAll (textBlocksOf msgs), true, none, lastResultOf msgs none⟩ := by
    rw [hfst] at h1; exact Except.ok.inj h1
  refine ⟨by rw [hr], ?_, ?_⟩
  · have hsnd : (processStreamAux handlers "" none msgs).2 = evs := congrArg Prod.snd hok
    rw [← hsnd, processStreamAux_events]
    exact textEventsOf_eventsOf handlers hT msgs herr
  · have h2 := processStreamAux_ok emptyHandlers msgs herr "" none
    rw [strEmptyAppend] at h2
    unfold collectStreamText processStream
    rw [h2]

/-- C1 witness: the amended theorem applied to the concrete stream
`[assistant [text "a", text ""]]` with every handler registered. -/
theorem processStream_text_delivery_witness :
    allHandlers.onText = true ∧
    processStream [ProviderMessage.assistant (some [ContentBlock.text "a", ContentBlock.text ""])]
        allHandlers = (Except.ok ⟨"a", true, none, none⟩, [HEvent.text "a"]) ∧
    (StreamResult.mk "a" true none none).text =
      concatAll (textBlocksOf
        [ProviderMessage.assistant (some [ContentBlock.text "a", ContentBlock.text ""])]) ∧
    textEventsOf [HEvent.text "a"] = nonemptyOnly (textBlocksOf
        [ProviderMessage.assistant (some [ContentBlock.text "a", ContentBlock.text ""])]) ∧
    collectStreamText [ProviderMessage.assistant
        (some [ContentBlock.text "a", ContentBlock.text ""])] =
      Except.ok (concatAll (textBlocksOf
        [ProviderMessage.assistant (some [ContentBlock.text "a", ContentBlock.text ""])])) := by
  refine ⟨rfl, rfl, ?_⟩
  exact processStream_text_delivery allHandlers _ _ _ rfl rfl

/-- C3: `processStream` returns normally only when the consumed message
sequence contains no error message; on the first error message it throws
the (defaulted) error text after invoking `onError` as the last handler
invocation, and consumes none of the messages after it (the outcome
depends only on the prefix before the error); the partial text
accumulated so far appears in no returned value, only in the handler
trace. -/
theorem processStream_error_short_circuit (handlers : StreamHandlers)
    (pre post : List ProviderMessage) (e : Option String)
    (hpre : ∀ m ∈ pre, isErrorMsg m = false) :
    (∀ msgs r evs, processStream msgs handlers = (Except.ok r, evs) →
        ∀ m ∈ msgs, isErrorMsg m = false) ∧
    processStream (pre ++ ProviderMessage.error e :: post) handlers =
      (Except.error (errorTextOf e),
        eventsOf handlers pre ++
          (if handlers.onError then [HEvent.error (errorTextOf e)] else [])) := by
  constructor
  · intro msgs r evs hok
    exact processStreamAux_ok_no_error handlers msgs "" none r (congrArg Prod.fst hok)
  · have h1 := processStreamAux_error handlers pre e post hpre "" none
    have h2 := processStreamAux_events handlers (pre ++ ProviderMessage.error e :: post) "" none
    rw [eventsOf_append_error handlers pre e post hpre] at h2
    exact Prod.ext h1 h2

/-- C3 witness: the stream `[assistant(text="partial"), error("boom")]`
throws `"boom"`; the partial text is visible only in the trace. -/
theorem processStream_error_short_circuit_witness :
    (∀ m ∈ [ProviderMessage.assistant (some [ContentBlock.text "partial"])],
        isErrorMsg m = false) ∧
    processStream [ProviderMessage.assistant (some [ContentBlock.text "partial"]),
        ProviderMessage.error (some "boom")] allHandlers =
      (Except.error "boom", [HEvent.text "partial", HEvent.error "boom"]) := by
  refine ⟨by decide, ?_⟩
  exact (processStream_error_short_circuit allHandlers
    [ProviderMessage.assistant (some [ContentBlock.text "partial"])] []
    (some "boom") (by decide)).2

/-- C8: the concrete stream `[assistant(text="Hello "),
assistant(text="world"), result(success, "done")]` with no handlers
yields `{text: "Hello world", success: true, result: "done"}` (and no
error, no handler invocations). -/
theorem processStream_hello_world :
    processStream [ProviderMessage.assistant (some [ContentBlock.text "Hello "]),
      ProviderMessage.assistant (some [ContentBlock.text "world"]),
      ProviderMessage.result "success" (some "done")] emptyHandlers =
    (Except.ok ⟨"Hello world", true, none, some "done"⟩, []) := rfl

/-- C10: in a stream with no error message and no `result` message of
subtype `success`, every `result` message (necessarily of a non-success
subtype) is silently ignored: `processStream` returns normally with
`success = true`, an undefined `result` field, and `onComplete` is never
invoked. -/
theorem processStream_ignores_failure_results (handlers : StreamHandlers)
    (msgs : List ProviderMessage)
    (h : ∀ m ∈ msgs, isErrorMsg m = false ∧ isSuccessResult m = false) :
    (processStream msgs handlers).1 =
      Except.ok ⟨concatAll (textBlocksOf msgs), true, none, none⟩ ∧
    (processStream msgs handlers).2.filter isCompleteEvent = [] := by
  have herr : ∀ m ∈ msgs, isErrorMsg m = false := fun m hm => (h m hm).1
  have hres : ∀ m ∈ msgs, isSuccessResult m = false := fun m hm => (h m hm).2
  constructor
  · have h1 := processStreamAux_ok handlers msgs herr "" none
    rw [strEmptyAppend, lastResultOf_none msgs none hres] at h1
    exact h1
  · unfold processStream
    rw [processStreamAux_events]
    exact eventsOf_no_complete handlers msgs hres

/-- C10 witness: a failure `result` message followed by text; the stream
returns `success = true`, `result = none`, and no `onComplete` event. -/
theorem processStream_ignores_failure_results_witness :
    (∀ m ∈ [ProviderMessage.result "error_during_execution" (some "bad"),
        ProviderMessage.assistant (some [ContentBlock.text "hi"])],
      isErrorMsg m = false ∧ isSuccessResult m = false) ∧
    (processStream [ProviderMessage.result "error_during_execution" (some "bad"),
        ProviderMessage.assistant (some [ContentBlock.text "hi"])] allHandlers).1 =
      Except.ok ⟨concatAll (textBlocksOf
        [ProviderMessage.result "error_during_execution" (some "bad"),
         ProviderMessage.assistant (some [ContentBlock.text "hi"])]), true, none, none⟩ ∧
    (processStream [ProviderMessage.result "error_during_execution" (some "bad"),
        ProviderMessage.assistant (some [ContentBlock.text "hi"])]
      allHandlers).2.filter isCompleteEvent = [] := by
  refine ⟨by decide, ?_, ?_⟩
  · exact (processStream_ignores_failure_results allHandlers _ (by decide)).1
  · exact (processStream_ignores_failure_results allHandlers _ (by decide)).2

/-! ### Plan approval gate (`PlanApprovalService`) -/

/-- `ApprovalResult`: the value delivered to the waiting caller. -/
structure ApprovalResult where
  approved : Bool
  editedPlan : Option String
  feedback : Option String
deriving DecidableEq

/-- How a registered promise was settled: `resolved` with an
`ApprovalResult` (the `pending.resolve(...)` call in `resolve`), or
`rejected` with an error message (the `pending.reject(new Error(...))`
call in `cancel`) — structurally distinct outcomes. -/
inductive PromiseOutcome where
  | resolved (result : ApprovalResult)
  | rejected (message : String)
deriving DecidableEq

/-- `PendingApproval`: the `resolve`/`reject` callbacks of the
registered promise are embedded as a promise identifier whose
settlements are recorded in the service state's settlement log. -/
structure PendingApproval where
  promiseId : Nat
  featureId : String
  projectPath : String
deriving DecidableEq

/-- The mutable state of a `PlanApprovalService` instance: the
`pendingApprovals` map (`Map<string, PendingApproval>`, embedded as an
association list with unique keys), a counter supplying fresh promise
identifiers, and the log of promise settlements in the order they
happened. -/
structure ServiceState where
  pendingApprovals : List (String × PendingApproval)
  nextPromiseId : Nat
  settlements : List (Nat × PromiseOutcome)
deriving DecidableEq

/-- A freshly constructed service: empty map, no settlements. -/
def initialServiceState : ServiceState := ⟨[], 0, []⟩

/-- `Map.get`. -/
def mapGet (m : List (String × PendingApproval)) (k : String) : Option PendingApproval :=
  match m with
  | [] => none
  | (k', v) :: rest => if k' = k then some v else mapGet rest k

/-- `Map.set`: overwrites the entry in place, else appends. -/
def mapSet (m : List (String × PendingApproval)) (k : String) (v : PendingApproval) :
    List (String × PendingApproval) :=
  match m with
  | [] => [(k, v)]
  | (k', v') :: rest => if k' = k then (k, v) :: rest else (k', v') :: mapSet rest k v

/-- `Map.delete`. -/
def mapDelete (m : List (String × PendingApproval)) (k : String) :
    List (String × PendingApproval) :=
  match m with
  | [] => []
  | (k', v') :: rest => if k' = k then rest else (k', v') :: mapDelete rest k

/-- `waitForApproval(featureId, projectPath)`: creates a fresh promise
and registers it in `pendingApprovals` under `featureId` (overwriting
any existing entry).  Returns the new state and the identifier of the
promise handed back to the caller. -/
def waitForApproval (st : ServiceState) (featureId projectPath : String) :
    ServiceState × Nat :=
  let pid := st.nextPromiseId
  ({ pendingApprovals := mapSet st.pendingApprovals featureId ⟨pid, featureId, projectPath⟩,
     nextPromiseId := pid + 1,
     settlements := st.settlements }, pid)

/-- The `{success, error?, projectPath?}` value returned by `resolve`. -/
structure ResolveResult where
  success : Bool
  error : Option String
  projectPath : Option String
deriving DecidableEq

/-- `PlanApprovalService.resolve(featureId, approved, editedPlan?,
feedback?)`: with no pending entry, returns `success: false` with the
"no pending approval" error and leaves the state unchanged; otherwise
resolves the pending promise with `{approved, editedPlan, feedback}`,
deletes the entry and returns `success: true` with the project path. -/
def planResolve (st : ServiceState) (featureId : String) (approved : Bool)
    (editedPlan feedback : Option String) : ServiceState × ResolveResult :=
  match mapGet st.pendingApprovals featureId with
  | none => (st, ⟨false, some ("No pending approval for feature " ++ featureId), none⟩)
  | some pending =>
      ({ st with
          pendingApprovals := mapDelete st.pendingApprovals featureId,
          settlements := st.settlements ++
            [(pending.promiseId, PromiseOutcome.resolved ⟨approved, editedPlan, feedback⟩)] },
       ⟨true, none, some pending.projectPath⟩)

/-- `PlanApprovalService.cancel(featureId)`: with a pending entry,
rejects its promise with the cancellation error and deletes the entry;
otherwise does nothing. -/
def planCancel (st : ServiceState) (featureId : String) : ServiceState :=
  match mapGet st.pendingApprovals featureId with
  | some pending =>
      { st with
          pendingApprovals := mapDelete st.pendingApprovals featureId,
          settlements := st.settlements ++
            [(pending.promiseId,
              PromiseOutcome.rejected "Plan approval cancelled - feature was stopped")] }
  | none => st

/-- `PlanApprovalService.hasPending(featureId)`. -/
def hasPending (st : ServiceState) (featureId : String) : Bool :=
  (mapGet st.pendingApprovals featureId).isSome

/-- One external operation on the service, for reasoning about every
possible continuation of a history. -/
inductive ServiceOp where
  | wait (featureId projectPath : String)
  | resolveOp (featureId : String) (approved : Bool) (editedPlan feedback : Option String)
  | cancelOp (featureId : String)
deriving DecidableEq

/-- State transition of one operation. -/
def applyOp (st : ServiceState) : ServiceOp → ServiceState
  | ServiceOp.wait f p => (waitForApproval st f p).1
  | ServiceOp.resolveOp f a e fb => (planResolve st f a e fb).1
  | ServiceOp.cancelOp f => planCancel st f

/-- Runs a list of operations in order. -/
def runOps (st : ServiceState) : List ServiceOp → ServiceState
  | [] => st
  | op :: rest => runOps (applyOp st op) rest

/-- The promise identifiers of a map's entries. -/
def idsOf : List (String × PendingApproval) → List Nat
  | [] => []
  | kv :: rest => kv.2.promiseId :: idsOf rest

/-- The promise identifiers of the pending entries. -/
def pendingIds (st : ServiceState) : List Nat :=
  idsOf st.pendingApprovals

/-- The promise identifiers that have been settled. -/
def settledIds (st : ServiceState) : List Nat :=
  st.settlements.map (fun s => s.1)

/-- Every promise identifier in the state is below the freshness
counter (true of every reachable state). -/
def wellFormed (st : ServiceState) : Prop :=
  (∀ i ∈ pendingIds st, i < st.nextPromiseId) ∧
  (∀ i ∈ settledIds st, i < st.nextPromiseId)

/-- The keys of the map are pairwise distinct (a JS `Map` invariant). -/
def keysUnique : List (String × PendingApproval) → Bool
  | [] => true
  | (k, _) :: rest => (mapGet rest k).isNone && keysUnique rest

instance : DecidablePred wellFormed := fun st => by
  unfold wellFormed; infer_instance


theorem mapGet_mapSet_self (m : List (String × PendingApproval)) (k : String)
    (v : PendingApproval) : mapGet (mapSet m k v) k = some v := by
  induction m with
  | nil => simp [mapSet, mapGet]
  | cons kv rest ih =>
    obtain ⟨k0, v0⟩ := kv
    by_cases h : k0 = k <;> simp [mapSet, mapGet, h, ih]

theorem mapGet_mapSet_ne (m : List (String × PendingApproval)) (k k' : String)
    (v : PendingApproval) (h : k' ≠ k) : mapGet (mapSet m k v) k' = mapGet m k' := by
  induction m with
  | nil => simp [mapSet, mapGet, Ne.symm h]
  | cons kv rest ih =>
    obtain ⟨k0, v0⟩ := kv
    by_cases h0 : k0 = k
    · subst h0
      simp [mapSet, mapGet, Ne.symm h]
    · simp [mapSet, mapGet, h0, ih]

theorem keysUnique_mapSet (m : List (String × PendingApproval)) (k : String)
    (v : PendingApproval) (h : keysUnique m = true) : keysUnique (mapSet m k v) = true := by
  induction m with
  | nil => simp [mapSet, keysUnique, mapGet]
  | cons kv rest ih =>
    obtain ⟨k0, v0⟩ := kv
    rw [keysUnique, Bool.and_eq_true] at h
    by_cases h0 : k0 = k
    · subst h0
      simp [mapSet, keysUnique, h.1, h.2]
    · rw [mapSet, if_neg h0, keysUnique, Bool.and_eq_true]
      refine ⟨?_, ih h.2⟩
      rw [mapGet_mapSet_ne rest k k0 v h0]
      exact h.1

theorem mapGet_mapDelete_self (m : List (String × PendingApproval)) (k : String)
    (h : keysUnique m = true) : mapGet (mapDelete m k) k = none := by
  induction m with
  | nil => rfl
  | cons kv rest ih =>
    obtain ⟨k0, v0⟩ := kv
    rw [keysUnique, Bool.and_eq_true] at h
    by_cases h0 : k0 = k
    · subst h0
      rw [mapDelete, if_pos rfl]
      exact Option.isNone_iff_eq_none.mp h.1
    · rw [mapDelete, if_neg h0, mapGet, if_neg h0]
      exact ih h.2

theorem mem_idsOf_mapSet (m : List (String × PendingApproval)) (k : String)
    (v : PendingApproval) (i : Nat) (h : i ∈ idsOf (mapSet m k v)) :
    i = v.promiseId ∨ i ∈ idsOf m := by
  induction m with
  | nil =>
    rw [mapSet, idsOf, idsOf] at h
    exact Or.inl (List.mem_singleton.mp h)
  | cons kv rest ih =>
    obtain ⟨k0, v0⟩ := kv
    by_cases h0 : k0 = k
    · rw [mapSet, if_pos h0, idsOf] at h
      rcases List.mem_cons.mp h with h | h
      · exact Or.inl h
      · exact Or.inr (List.mem_cons_of_mem _ h)
    · rw [mapSet, if_neg h0, idsOf] at h
      rcases List.mem_cons.mp h with h | h
      · exact Or.inr (h ▸ List.mem_cons_self _ _)
      · rcases ih h with h | h
        · exact Or.inl h
        · exact Or.inr (List.mem_cons_of_mem _ h)

theorem mem_idsOf_mapDelete (m : List (String × PendingApproval)) (k : String)
    (i : Nat) (h : i ∈ idsOf (mapDelete m k)) : i ∈ idsOf m := by
  induction m with
  | nil => simpa [mapDelete] using h
  | cons kv rest ih =>
    obtain ⟨k0, v0⟩ := kv
    by_cases h0 : k0 = k
    · rw [mapDelete, if_pos h0] at h
      exact List.mem_cons_of_mem _ h
    · rw [mapDelete, if_neg h0, idsOf] at h
      rcases List.mem_cons.mp h with h | h
      · exact h ▸ List.mem_cons_self _ _
      · exact List.mem_cons_of_mem _ (ih h)

theorem mem_idsOf_mapSet_mapSet (m : List (String × PendingApproval)) (k : String)
    (v1 v2 : PendingApproval) (i : Nat)
    (h : i ∈ idsOf (mapSet (mapSet m k v1) k v2)) :
    i = v2.promiseId ∨ i ∈ idsOf m := by
  induction m with
  | nil =>
    rw [mapSet, mapSet, if_pos rfl, idsOf, idsOf] at h
    exact Or.inl (List.mem_singleton.mp h)
  | cons kv rest ih =>
    obtain ⟨k0, v0⟩ := kv
    by_cases h0 : k0 = k
    · subst h0
      rw [mapSet, if_pos rfl, mapSet, if_pos rfl, idsOf] at h
      rcases List.mem_cons.mp h with h | h
      · exact Or.inl h
      · exact Or.inr (List.mem_cons_of_mem _ h)
    · rw [mapSet, if_neg h0, mapSet, if_neg h0, idsOf] at h
      rcases List.mem_cons.mp h with h | h
      · exact Or.inr (h ▸ List.mem_cons_self _ _)
      · rcases ih h with h | h
        · exact Or.inl h
        · exact Or.inr (List.mem_cons_of_mem _ h)

theorem mapGet_mem_idsOf (m : List (String × PendingApproval)) (k : String)
    (v : PendingApproval) (h : mapGet m k = some v) : v.promiseId ∈ idsOf m := by
  induction m with
  | nil => simp [mapGet] at h
  | cons kv rest ih =>
    obtain ⟨k0, v0⟩ := kv
    by_cases h0 : k0 = k
    · rw [mapGet, if_pos h0] at h
      rw [idsOf, Option.some.inj h]
      exact List.mem_cons_self _ _
    · rw [mapGet, if_neg h0] at h
      exact List.mem_cons_of_mem _ (ih h)

/-- C2: on a featureId with no pending entry, `resolve` returns
`success: false` with the "no pending approval" error and changes
nothing; on a featureId with a pending entry (on a reachable state,
where the JS `Map` keys are unique), `resolve` succeeds and a second
`resolve` on the same featureId then fails with the same error. -/
theorem planResolve_unknown_and_once (st : ServiceState) (fid : String) (a : Bool)
    (ep fb : Option String) (a2 : Bool) (ep2 fb2 : Option String)
    (huniq : keysUnique st.pendingApprovals = true) :
    (mapGet st.pendingApprovals fid = none →
      planResolve st fid a ep fb =
        (st, ⟨false, some ("No pending approval for feature " ++ fid), none⟩)) ∧
    (hasPending st fid = true →
      (planResolve st fid a ep fb).2.success = true ∧
      (planResolve (planResolve st fid a ep fb).1 fid a2 ep2 fb2).2 =
        ⟨false, some ("No pending approval for feature " ++ fid), none⟩) := by
  constructor
  · intro hnone
    rw [planResolve, hnone]
  · intro hpend
    obtain ⟨p, hp⟩ := Option.isSome_iff_exists.mp hpend
    rw [planResolve, hp]
    refine ⟨rfl, ?_⟩
    have hdel : mapGet (mapDelete st.pendingApprovals fid) fid = none :=
      mapGet_mapDelete_self st.pendingApprovals fid huniq
    rw [planResolve]
    simp only [hdel]

/-- C2 witness: register a feature, resolve it twice; also resolve an
unknown feature on the fresh service. -/
theorem planResolve_unknown_and_once_witness :
    (keysUnique initialServiceState.pendingApprovals = true ∧
      planResolve initialServiceState "f" true none none =
        (initialServiceState, ⟨false, some "No pending approval for feature f", none⟩)) ∧
    (keysUnique (waitForApproval initialServiceState "f" "/p").1.pendingApprovals = true ∧
      (planResolve (waitForApproval initialServiceState "f" "/p").1 "f" true none none).2.success
          = true ∧
      (planResolve (planResolve (waitForApproval initialServiceState "f" "/p").1
          "f" true none none).1 "f" false none none).2 =
        ⟨false, some "No pending approval for feature f", none⟩) := by
  constructor
  · exact ⟨rfl, (planResolve_unknown_and_once initialServiceState "f" true none none
      false none none rfl).1 rfl⟩
  · refine ⟨rfl, ?_⟩
    exact (planResolve_unknown_and_once (waitForApproval initialServiceState "f" "/p").1
      "f" true none none false none none rfl).2 rfl

/-- C6: on a featureId with a pending entry (on a reachable state),
`cancel` rejects the entry's promise with the cancellation error — a
`PromiseOutcome.rejected`, structurally distinct from every
rejection-with-feedback `PromiseOutcome.resolved` — removes the entry so
that `hasPending` becomes false, and changes nothing else; on a
featureId with no pending entry, `cancel` is a silent no-op. -/
theorem planCancel_spec (st : ServiceState) (fid : String)
    (huniq : keysUnique st.pendingApprovals = true) :
    (∀ p, mapGet st.pendingApprovals fid = some p →
      planCancel st fid =
        { st with
            pendingApprovals := mapDelete st.pendingApprovals fid,
            settlements := st.settlements ++
              [(p.promiseId,
                PromiseOutcome.rejected "Plan approval cancelled - feature was stopped")] } ∧
      hasPending (planCancel st fid) fid = false ∧
      ∀ r : ApprovalResult,
        PromiseOutcome.rejected "Plan approval cancelled - feature was stopped" ≠
          PromiseOutcome.resolved r) ∧
    (mapGet st.pendingApprovals fid = none → planCancel st fid = st) := by
  constructor
  · intro p hp
    have hc : planCancel st fid =
        { st with
            pendingApprovals := mapDelete st.pendingApprovals fid,
            settlements := st.settlements ++
              [(p.promiseId,
                PromiseOutcome.rejected "Plan approval cancelled - feature was stopped")] } := by
      rw [planCancel, hp]
    refine ⟨hc, ?_, fun r h => PromiseOutcome.noConfusion h⟩
    rw [hc, hasPending]
    simp only [mapGet_mapDelete_self st.pendingApprovals fid huniq, Option.isSome_none]
  · intro hnone
    rw [planCancel, hnone]

/-- C6 witness: cancel a registered feature and cancel on the fresh
service. -/
theorem planCancel_spec_witness :
    (keysUnique (waitForApproval initialServiceState "f" "/p").1.pendingApprovals = true ∧
      planCancel (waitForApproval initialServiceState "f" "/p").1 "f" =
        ⟨[], 1, [(0, PromiseOutcome.rejected "Plan approval cancelled - feature was stopped")]⟩ ∧
      hasPending (planCancel (waitForApproval initialServiceState "f" "/p").1 "f") "f"
        = false) ∧
    planCancel initialServiceState "f" = initialServiceState := by
  constructor
  · have h := (planCancel_spec (waitForApproval initialServiceState "f" "/p").1 "f" rfl).1
      ⟨0, "f", "/p"⟩ rfl
    exact ⟨rfl, h.1, h.2.1⟩
  · exact (planCancel_spec initialServiceState "f" rfl).2 rfl

/-- A promise that was dropped without being settled: it is older than
the freshness counter, no longer registered, and never settled.  Such a
promise can never be settled by any further operation. -/
def promiseLost (st : ServiceState) (pid : Nat) : Prop :=
  wellFormed st ∧ pid < st.nextPromiseId ∧ pid ∉ pendingIds st ∧ pid ∉ settledIds st

theorem promiseLost_applyOp (st : ServiceState) (pid : Nat) (op : ServiceOp)
    (h : promiseLost st pid) : promiseLost (applyOp st op) pid := by
  obtain ⟨⟨hwp, hws⟩, hlt, hnp, hns⟩ := h
  cases op with
  | wait f p =>
    simp only [applyOp, waitForApproval]
    refine ⟨⟨?_, ?_⟩, ?_, ?_, ?_⟩
    · intro i hi
      simp only [pendingIds] at hi
      rcases mem_idsOf_mapSet st.pendingApprovals f _ i hi with hh | hh
      · simp only [hh]; omega
      · exact Nat.lt_succ_of_lt (hwp i hh)
    · intro i hi
      exact Nat.lt_succ_of_lt (hws i hi)
    · exact Nat.lt_succ_of_lt hlt
    · intro hmem
      simp only [pendingIds] at hmem
      rcases mem_idsOf_mapSet st.pendingApprovals f _ pid hmem with hh | hh
      · simp only at hh; omega
      · exact hnp hh
    · exact hns
  | resolveOp f a e fb =>
    rcases hget : mapGet st.pendingApprovals f with _ | q
    · simpa [applyOp, planResolve, hget] using ⟨⟨hwp, hws⟩, hlt, hnp, hns⟩
    · have hq : q.promiseId ∈ pendingIds st := mapGet_mem_idsOf st.pendingApprovals f q hget
      simp only [applyOp, planResolve, hget]
      refine ⟨⟨?_, ?_⟩, hlt, ?_, ?_⟩
      · intro i hi
        exact hwp i (mem_idsOf_mapDelete st.pendingApprovals f i hi)
      · intro i hi
        simp only [settledIds, List.map_append, List.mem_append, List.map_cons,
          List.map_nil, List.mem_singleton] at hi
        rcases hi with hi | hi
        · exact hws i hi
        · rw [hi]; exact hwp _ hq
      · intro hmem
        exact hnp (mem_idsOf_mapDelete st.pendingApprovals f pid hmem)
      · intro hmem
        simp only [settledIds, List.map_append, List.mem_append, List.map_cons,
          List.map_nil, List.mem_singleton] at hmem
        rcases hmem with hmem | hmem
        · exact hns hmem
        · rw [hmem] at hnp; exact hnp hq
  | cancelOp f =>
    rcases hget : mapGet st.pendingApprovals f with _ | q
    · simpa [applyOp, planCancel, hget] using ⟨⟨hwp, hws⟩, hlt, hnp, hns⟩
    · have hq : q.promiseId ∈ pendingIds st := mapGet_mem_idsOf st.pendingApprovals f q hget
      simp only [applyOp, planCancel, hget]
      refine ⟨⟨?_, ?_⟩, hlt, ?_, ?_⟩
      · intro i hi
        exact hwp i (mem_idsOf_mapDelete st.pendingApprovals f i hi)
      · intro i hi
        simp only [settledIds, List.map_append, List.mem_append, List.map_cons,
          List.map_nil, List.mem_singleton] at hi
        rcases hi with hi | hi
        · exact hws i hi
        · rw [hi]; exact hwp _ hq
      · intro hmem
        exact hnp (mem_idsOf_mapDelete st.pendingApprovals f pid hmem)
      · intro hmem
        simp only [settledIds, List.map_append, List.mem_append, List.map_cons,
          List.map_nil, List.mem_singleton] at hmem
        rcases hmem with hmem | hmem
        · exact hns hmem
        · rw [hmem] at hnp; exact hnp hq

theorem promiseLost_runOps (pid : Nat) :
    ∀ ops st, promiseLost st pid → promiseLost (runOps st ops) pid := by
  intro ops
  induction ops with
  | nil => intro st h; exact h
  | cons op rest ih =>
    intro st h
    exact ih (applyOp st op) (promiseLost_applyOp st pid op h)

/-- C9: a second `waitForApproval` for the same featureId while the
first is still pending overwrites the map entry.  A subsequent `resolve`
settles only the promise returned by the second call (and returns
`success: true` exactly once: resolving again fails), while the promise
returned by the first call is settled neither then nor by any sequence
of further operations — it is never resolved and never rejected. -/
theorem waitForApproval_overwrite (st st1 st2 st3 : ServiceState) (fid pp1 pp2 : String)
    (p1 p2 : Nat) (a : Bool) (ep fb : Option String) (rres : ResolveResult)
    (hwf : wellFormed st) (huniq : keysUnique st.pendingApprovals = true)
    (h1 : waitForApproval st fid pp1 = (st1, p1))
    (h2 : waitForApproval st1 fid pp2 = (st2, p2))
    (h3 : planResolve st2 fid a ep fb = (st3, rres)) :
    rres.success = true ∧
    st3.settlements = st2.settlements ++ [(p2, PromiseOutcome.resolved ⟨a, ep, fb⟩)] ∧
    p1 ≠ p2 ∧
    (∀ a2 ep2 fb2, (planResolve st3 fid a2 ep2 fb2).2.success = false) ∧
    (∀ ops, p1 ∉ settledIds (runOps st3 ops)) := by
  obtain ⟨hwp, hws⟩ := hwf
  have hst1 : st1 = ⟨mapSet st.pendingApprovals fid ⟨st.nextPromiseId, fid, pp1⟩,
      st.nextPromiseId + 1, st.settlements⟩ := (congrArg Prod.fst h1).symm
  have hp1 : p1 = st.nextPromiseId := (congrArg Prod.snd h1).symm
  have hst2 : st2 = ⟨mapSet st1.pendingApprovals fid ⟨st1.nextPromiseId, fid, pp2⟩,
      st1.nextPromiseId + 1, st1.settlements⟩ := (congrArg Prod.fst h2).symm
  have hp2 : p2 = st1.nextPromiseId := (congrArg Prod.snd h2).symm
  subst hst1 hst2 hp1 hp2
  simp only at h3 ⊢
  have hget : mapGet (mapSet (mapSet st.pendingApprovals fid
        ⟨st.nextPromiseId, fid, pp1⟩) fid ⟨st.nextPromiseId + 1, fid, pp2⟩) fid =
      some ⟨st.nextPromiseId + 1, fid, pp2⟩ :=
    mapGet_mapSet_self _ fid _
  rw [planResolve] at h3
  simp only [hget] at h3
  have hst3 : st3 = ⟨mapDelete (mapSet (mapSet st.pendingApprovals fid
        ⟨st.nextPromiseId, fid, pp1⟩) fid ⟨st.nextPromiseId + 1, fid, pp2⟩) fid,
      st.nextPromiseId + 1 + 1,
      st.settlements ++ [(st.nextPromiseId + 1, PromiseOutcome.resolved ⟨a, ep, fb⟩)]⟩ :=
    (congrArg Prod.fst h3).symm
  have hres : rres = ⟨true, none, some pp2⟩ := (congrArg Prod.snd h3).symm
  subst hst3 hres
  have huniq2 : keysUnique (mapSet (mapSet st.pendingApprovals fid
      ⟨st.nextPromiseId, fid, pp1⟩) fid ⟨st.nextPromiseId + 1, fid, pp2⟩) = true :=
    keysUnique_mapSet _ fid _ (keysUnique_mapSet _ fid _ huniq)
  refine ⟨rfl, rfl, by omega, ?_, ?_⟩
  · intro a2 ep2 fb2
    rw [planResolve]
    simp only [mapGet_mapDelete_self _ fid huniq2]
  · have hlost : promiseLost
        ⟨mapDelete (mapSet (mapSet st.pendingApprovals fid
            ⟨st.nextPromiseId, fid, pp1⟩) fid ⟨st.nextPromiseId + 1, fid, pp2⟩) fid,
          st.nextPromiseId + 1 + 1,
          st.settlements ++ [(st.nextPromiseId + 1, PromiseOutcome.resolved ⟨a, ep, fb⟩)]⟩
        st.nextPromiseId := by
      refine ⟨⟨?_, ?_⟩, by dsimp only; omega, ?_, ?_⟩
      · intro i hi
        simp only [pendingIds] at hi
        rcases mem_idsOf_mapSet_mapSet st.pendingApprovals fid _ _ i
            (mem_idsOf_mapDelete _ fid i hi) with hh | hh
        · dsimp only; simp only [hh]; omega
        · dsimp only; have := hwp i hh; omega
      · intro i hi
        simp only [settledIds, List.map_append, List.mem_append, List.map_cons,
          List.map_nil, List.mem_singleton] at hi
        rcases hi with hi | hi
        · dsimp only; have := hws i hi; omega
        · dsimp only; omega
      · intro hmem
        simp only [pendingIds] at hmem
        rcases mem_idsOf_mapSet_mapSet st.pendingApprovals fid _ _ st.nextPromiseId
            (mem_idsOf_mapDelete _ fid st.nextPromiseId hmem) with hh | hh
        · simp only at hh; omega
        · have := hwp _ hh; omega
      · intro hmem
        simp only [settledIds, List.map_append, List.mem_append, List.map_cons,
          List.map_nil, List.mem_singleton] at hmem
        rcases hmem with hmem | hmem
        · have := hws _ hmem; omega
        · omega
    intro ops
    exact (promiseLost_runOps st.nextPromiseId ops _ hlost).2.2.2

/-- C9 witness: two registrations for `"f"` on the fresh service, then a
resolve; the first promise (id 0) is absent from the settlement log even
after a further cancel operation. -/
theorem waitForApproval_overwrite_witness :
    (wellFormed initialServiceState ∧
      keysUnique initialServiceState.pendingApprovals = true) ∧
    (ResolveResult.mk true none (some "/q")).success = true ∧
    (0 : Nat) ≠ 1 ∧
    (planResolve ⟨[], 2, [(1, PromiseOutcome.resolved ⟨true, none, none⟩)]⟩
        "f" false none none).2.success = false ∧
    (0 : Nat) ∉ settledIds (runOps
        ⟨[], 2, [(1, PromiseOutcome.resolved ⟨true, none, none⟩)]⟩
        [ServiceOp.cancelOp "f", ServiceOp.wait "g" "/g"]) := by
  have h := waitForApproval_overwrite initialServiceState
    ⟨[("f", ⟨0, "f", "/p"⟩)], 1, []⟩
    ⟨[("f", ⟨1, "f", "/q"⟩)], 2, []⟩
    ⟨[], 2, [(1, PromiseOutcome.resolved ⟨true, none, none⟩)]⟩
    "f" "/p" "/q" 0 1 true none none ⟨true, none, some "/q"⟩
    (by decide) rfl rfl rfl rfl
  exact ⟨⟨by decide, rfl⟩, h.1, h.2.2.1, h.2.2.2.1 false none none,
    h.2.2.2.2 [ServiceOp.cancelOp "f", ServiceOp.wait "g" "/g"]⟩

/-! ### Task parser (`planning.ts`) -/

/-- Whitespace, standing in for both the JS regex class `\s` and the
characters trimmed by `String.prototype.trim` (the embedded inputs are
ASCII, where the classes coincide). -/
def isWS (c : Char) : Bool := c.isWhitespace

/-- `String.prototype.split(sep)` on character lists. -/
def splitChar (sep : Char) : List Char → List (List Char)
  | [] => [[]]
  | c :: cs =>
      match splitChar sep cs with
      | [] => [[]]
      | r :: rs => if c = sep then [] :: r :: rs else (c :: r) :: rs

/-- `String.prototype.trim` on character lists. -/
def trimChars (l : List Char) : List Char :=
  ((l.dropWhile isWS).reverse.dropWhile isWS).reverse

/-- `String.prototype.startsWith` on character lists. -/
def strPrefixOf : List Char → List Char → Bool
  | [], _ => true
  | _ :: _, [] => false
  | a :: ps, b :: ss => if a = b then strPrefixOf ps ss else false

/-- `TaskStatus`: a parsed task always starts `pending`. -/
inductive TaskStatus where
  | pending
  | in_progress
  | completed
  | failed
deriving DecidableEq

/-- `ParsedTask` from `@automaker/types`. -/
structure ParsedTask where
  id : String
  description : String
  filePath : Option String
  phase : Option String
  status : TaskStatus
deriving DecidableEq

/-- The tail of the full task pattern
`- \[ \] (T\d{3}):\s*([^|]+)(?:\|\s*File:\s*(.+))?$` after the colon:
`\s*` greedily takes the whitespace run (backing off one character when
everything before the first `|` is whitespace, since `[^|]+` needs at
least one character), `([^|]+)` takes the rest up to the first `|` or
the end; the optional suffix requires `|`, optional whitespace,
`File:`, then `(.+)` to the end of the line (again backing off to a
single character when all that remains is whitespace).  Returns the
captured description and optional file path. -/
def matchTail1 (r : List Char) : Option (List Char × Option (List Char)) :=
  match r.takeWhile (fun c => c ≠ '|') with
  | [] => none
  | a =>
      let q := r.dropWhile (fun c => c ≠ '|')
      let desc := if a.dropWhile isWS = [] then a.reverse.take 1 else a.dropWhile isWS
      match q with
      | [] => some (desc, none)
      | _ :: q2 =>
          let q3 := q2.dropWhile isWS
          if strPrefixOf ("File:".data) q3 then
            let rest := q3.drop 5
            match rest.reverse with
            | [] => none
            | c :: _ =>
                let f := rest.dropWhile isWS
                some (desc, some (if f = [] then [c] else f))
          else none

/-- The full task pattern anchored at the head of the list: the literal
`- [ ] T` followed by three digits and `:`, then `matchTail1`.  Returns
the captured id, description and optional file path. -/
def matchTaskAt1 (l : List Char) : Option (List Char × (List Char × Option (List Char))) :=
  match l with
  | '-' :: ' ' :: '[' :: ' ' :: ']' :: ' ' :: 'T' :: d1 :: d2 :: d3 :: ':' :: rest =>
      if d1.isDigit && d2.isDigit && d3.isDigit then
        match matchTail1 rest with
        | some df => some (['T', d1, d2, d3], df)
        | none => none
      else none
  | _ => none

/-- The tail of the simple pattern `- \[ \] (T\d{3}):\s*(.+)$` after the
colon: `\s*` then a nonempty capture to the end of the line. -/
def matchTail2 (r : List Char) : Option (List Char) :=
  match r with
  | [] => none
  | _ =>
      let d := r.dropWhile isWS
      some (if d = [] then r.reverse.take 1 else d)

/-- The simple task pattern anchored at the head of the list. -/
def matchTaskAt2 (l : List Char) : Option (List Char × List Char) :=
  match l with
  | '-' :: ' ' :: '[' :: ' ' :: ']' :: ' ' :: 'T' :: d1 :: d2 :: d3 :: ':' :: rest =>
      if d1.isDigit && d2.isDigit && d3.isDigit then
        match matchTail2 rest with
        | some desc => some (['T', d1, d2, d3], desc)
        | none => none
      else none
  | _ => none

/-- Leftmost match of the full task pattern (JS `String.match` scans
start positions left to right). -/
def findMatch1 : List Char → Option (List Char × (List Char × Option (List Char)))
  | [] => none
  | c :: rest =>
      match matchTaskAt1 (c :: rest) with
      | some r => some r
      | none => findMatch1 rest

/-- Leftmost match of the simple task pattern. -/
def findMatch2 : List Char → Option (List Char × List Char)
  | [] => none
  | c :: rest =>
      match matchTaskAt2 (c :: rest) with
      | some r => some r
      | none => findMatch2 rest

/-- `parseTaskLine(line, currentPhase)`: tries the full pattern (with
optional `| File: path` suffix), then the simple pattern; both captures
are trimmed; a parsed task always has status `pending` and the supplied
phase. -/
def parseTaskLine (line : String) (currentPhase : Option String) : Option ParsedTask :=
  match findMatch1 line.data with
  | some idf =>
      some ⟨String.mk idf.1, String.mk (trimChars idf.2.1),
            idf.2.2.map (fun f => String.mk (trimChars f)), currentPhase, TaskStatus.pending⟩
  | none =>
      match findMatch2 line.data with
      | some idd =>
          some ⟨String.mk idd.1, String.mk (trimChars idd.2), none, currentPhase,
                TaskStatus.pending⟩
      | none => none

/-- The phase-header pattern `^##\s*(.+)$` applied to the trimmed line,
with the capture trimmed (`phaseMatch[1].trim()`). -/
def phaseOf (trimmed : String) : Option String :=
  match trimmed.data with
  | '#' :: '#' :: rest =>
      match rest with
      | [] => none
      | _ =>
          let d := rest.dropWhile isWS
          some (String.mk (trimChars (if d = [] then rest.reverse.take 1 else d)))
  | _ => none

/-- The per-line loop over the fenced block's lines: a phase header
updates the current phase; a line starting (after trimming) with
`- [ ]` is fed to `parseTaskLine` and kept when it parses. -/
def parseBlockLines : List String → Option String → List ParsedTask
  | [], _ => []
  | line :: rest, currentPhase =>
      let trimmedLine := String.mk (trimChars line.data)
      match phaseOf trimmedLine with
      | some ph => parseBlockLines rest (some ph)
      | none =>
          if strPrefixOf ("- [ ]".data) trimmedLine.data then
            match parseTaskLine trimmedLine currentPhase with
            | some t => t :: parseBlockLines rest currentPhase
            | none => parseBlockLines rest currentPhase
          else parseBlockLines rest currentPhase

/-- The lazy group of ```` /```tasks\s*([\s\S]*?)```/ ````: everything up
to the first closing triple backtick, or `none` when there is none. -/
def splitAtClose : List Char → Option (List Char)
  | [] => none
  | c :: rest =>
      if strPrefixOf ("```".data) (c :: rest) then some []
      else (splitAtClose rest).map (fun content => c :: content)

/-- Leftmost match of the tasks-block pattern: the literal `` ```tasks ``,
then the greedy whitespace run, then the lazily captured content up to
the first closing `` ``` `` — a start position without a closing fence
matches nothing and scanning continues. -/
def findTasksBlock : List Char → Option (List Char)
  | [] => none
  | c :: rest =>
      if strPrefixOf ("```tasks".data) (c :: rest) then
        match splitAtClose (((c :: rest).drop 8).dropWhile isWS) with
        | some content => some content
        | none => findTasksBlock rest
      else findTasksBlock rest

/-- Head of the fallback pattern `- \[ \] T\d{3}:.*$`. -/
def isTaskHead (l : List Char) : Bool :=
  match l with
  | '-' :: ' ' :: '[' :: ' ' :: ']' :: ' ' :: 'T' :: d1 :: d2 :: d3 :: ':' :: _ =>
      d1.isDigit && d2.isDigit && d3.isDigit
  | _ => false

/-- Leftmost fallback match within one line: from the pattern head to
the end of the line (`.*$`). -/
def fallbackScan : List Char → Option (List Char)
  | [] => none
  | c :: rest => if isTaskHead (c :: rest) then some (c :: rest) else fallbackScan rest

/-- `parseTasksFromSpec(specContent)`: primary path parses the fenced
tasks block line by line with phase tracking; the fallback path collects
the per-line matches of the checkbox+ID pattern anywhere in the content
and parses them without phase tracking (`currentPhase` is never
assigned there). -/
def parseTasksFromSpec (specContent : String) : List ParsedTask :=
  match findTasksBlock specContent.data with
  | some blockContent =>
      parseBlockLines ((splitChar '\n' blockContent).map String.mk) none
  | none =>
      ((splitChar '\n' specContent.data).filterMap fallbackScan).filterMap
        (fun l => parseTaskLine (String.mk l) none)

/-- Follows the words of claim C4 (as amended), first pass: each line
paired with the phase governing it — a `##` header line sets the phase
attached to all subsequent lines until the next header or the end of the
block. -/
def phasedLines : List String → Option String → List (String × Option String)
  | [], _ => []
  | line :: rest, ph =>
      match phaseOf (String.mk (trimChars line.data)) with
      | some newPh => (line, ph) :: phasedLines rest (some newPh)
      | none => (line, ph) :: phasedLines rest ph

/-- Follows the words of claim C4 (as amended), second pass: a
non-header line whose trimmed form begins with the checkbox marker and
matches the task-line pattern yields one task under its governing phase;
all other lines (including checkbox lines that fail the pattern) yield
nothing, silently. -/
def claimExtract (lp : String × Option String) : Option ParsedTask :=
  let trimmed := String.mk (trimChars lp.1.data)
  match phaseOf trimmed with
  | some _ => none
  | none =>
      if strPrefixOf ("- [ ]".data) trimmed.data then parseTaskLine trimmed lp.2
      else none

/-- The task list claim C4 (as amended) predicts for a block's lines. -/
def claimTasks (lines : List String) : List ParsedTask :=
  (phasedLines lines none).filterMap claimExtract

/-- Whether a character list contains the `T\d{3}` id pattern. -/
def hasTaskId : List Char → Bool
  | [] => false
  | 'T' :: rest =>
      (match rest with
       | d1 :: d2 :: d3 :: _ => d1.isDigit && d2.isDigit && d3.isDigit
       | _ => false) || hasTaskId rest
  | _ :: rest => hasTaskId rest

/-- Every task produced by `parseTaskLine` has status `pending`. -/
theorem parseTaskLine_status (line : String) (ph : Option String) (t : ParsedTask)
    (h : parseTaskLine line ph = some t) : t.status = TaskStatus.pending := by
  rw [parseTaskLine] at h
  rcases h1 : findMatch1 line.data with _ | idf
  · rw [h1] at h
    rcases h2 : findMatch2 line.data with _ | idd
    · rw [h2] at h; exact absurd h (by simp)
    · rw [h2] at h
      obtain rfl := Option.some.inj h
      rfl
  · rw [h1] at h
    obtain rfl := Option.some.inj h
    rfl

/-- Every task produced by the block loop has status `pending`. -/
theorem parseBlockLines_status (lines : List String) :
    ∀ ph t, t ∈ parseBlockLines lines ph → t.status = TaskStatus.pending := by
  induction lines with
  | nil => intro ph t h; exact absurd h (List.not_mem_nil t)
  | cons line rest ih =>
    intro ph t h
    rw [parseBlockLines] at h
    rcases hp : phaseOf (String.mk (trimChars line.data)) with _ | newPh
    · rw [hp] at h
      by_cases hcb : strPrefixOf ("- [ ]".data) (String.mk (trimChars line.data)).data = true
      · rw [if_pos hcb] at h
        rcases ht : parseTaskLine (String.mk (trimChars line.data)) ph with _ | t0
        · rw [ht] at h; exact ih ph t h
        · rw [ht] at h
          rcases List.mem_cons.mp h with h | h
          · exact h ▸ parseTaskLine_status _ ph t0 ht
          · exact ih ph t h
      · rw [if_neg hcb] at h; exact ih ph t h
    · rw [hp] at h; exact ih (some newPh) t h

/-- The single-pass block loop computes exactly what the two-pass
reading of claim C4 (as amended) predicts, for every starting phase. -/
theorem parseBlockLines_eq_claim (lines : List String) :
    ∀ ph, parseBlockLines lines ph = (phasedLines lines ph).filterMap claimExtract := by
  induction lines with
  | nil => intro ph; rfl
  | cons line rest ih =>
    intro ph
    rw [parseBlockLines, phasedLines]
    rcases hp : phaseOf (String.mk (trimChars line.data)) with _ | newPh
    · dsimp only
      rw [List.filterMap_cons]
      have hce : claimExtract (line, ph) =
          if strPrefixOf ("- [ ]".data) (String.mk (trimChars line.data)).data = true
          then parseTaskLine (String.mk (trimChars line.data)) ph else none := by
        rw [claimExtract]
        simp only [hp]
      rw [hce]
      by_cases hcb : strPrefixOf ("- [ ]".data) (String.mk (trimChars line.data)).data = true
      · simp only [if_pos hcb]
        rcases ht : parseTaskLine (String.mk (trimChars line.data)) ph with _ | t0
        · try dsimp only
          exact ih ph
        · try dsimp only
          rw [ih ph]
      · simp only [if_neg hcb]
        try dsimp only
        exact ih ph
    · try dsimp only
      rw [List.filterMap_cons]
      have hce : claimExtract (line, ph) = none := by
        rw [claimExtract]
        simp only [hp]
      rw [hce]
      try dsimp only
      exact ih (some newPh)

/-- C4 (amended): for every spec string containing a fenced tasks block,
`parseTasksFromSpec` returns exactly one `ParsedTask` with status
`pending` per line of the block that begins (after trimming) with the
checkbox marker and matches the full task-line pattern (`T\d{3}`
followed by `:` and a nonempty description, with an optional
`| File: path` suffix), in source line order; a trimmed line beginning
with `##` sets the phase attached to all subsequent tasks until the next
header or the end of the block; checkbox lines that do not match the
full pattern are dropped silently. -/
theorem parseTasksFromSpec_block (spec : String) (c : List Char)
    (hb : findTasksBlock spec.data = some c) :
    parseTasksFromSpec spec = claimTasks ((splitChar '\n' c).map String.mk) ∧
    ∀ t ∈ parseTasksFromSpec spec, t.status = TaskStatus.pending := by
  have hmain : parseTasksFromSpec spec =
      parseBlockLines ((splitChar '\n' c).map String.mk) none := by
    rw [parseTasksFromSpec, hb]
  constructor
  · rw [hmain, claimTasks]
    exact parseBlockLines_eq_claim _ none
  · intro t ht
    rw [hmain] at ht
    exact parseBlockLines_status _ none t ht

/-- C4 witness: a concrete spec with a fenced block containing a phase
header, a well-formed task line and a malformed checkbox line. -/
theorem parseTasksFromSpec_block_witness :
    findTasksBlock ("```tasks\n## Phase 1\n- [ ] T001: do x\n- [ ] junk\n```".data) =
      some ("## Phase 1\n- [ ] T001: do x\n- [ ] junk\n".data) ∧
    (parseTasksFromSpec "```tasks\n## Phase 1\n- [ ] T001: do x\n- [ ] junk\n```" =
        claimTasks ((splitChar '\n'
          ("## Phase 1\n- [ ] T001: do x\n- [ ] junk\n".data)).map String.mk) ∧
      ∀ t ∈ parseTasksFromSpec "```tasks\n## Phase 1\n- [ ] T001: do x\n- [ ] junk\n```",
        t.status = TaskStatus.pending) := by
  refine ⟨by decide, ?_⟩
  exact parseTasksFromSpec_block
    "```tasks\n## Phase 1\n- [ ] T001: do x\n- [ ] junk\n```"
    ("## Phase 1\n- [ ] T001: do x\n- [ ] junk\n".data) (by decide)

/-- C4 counterexample: the block line `- [ ] T001` begins with the
checkbox marker and matches the `T\d{3}` id pattern, yet
`parseTasksFromSpec` returns no task for it (the task-line regexes also
require a colon and a nonempty description), so "one ParsedTask per line
that begins with the checkbox marker and matches the T\d{3} ID pattern"
fails. -/
theorem parseTasksFromSpec_counterexample :
    parseTasksFromSpec "```tasks\n- [ ] T001\n```" = [] ∧
    strPrefixOf ("- [ ]".data) ("- [ ] T001".data) = true ∧
    hasTaskId ("- [ ] T001".data) = true ∧
    trimChars ("- [ ] T001".data) = "- [ ] T001".data := by decide

/-! ### Worktree resolver (`worktree-manager.ts`) -/

/-- Node `path.isAbsolute` (posix). -/
def isAbsolutePath (p : String) : Bool :=
  match p.data with
  | '/' :: _ => true
  | _ => false

/-- Node path normalization: empty components and `.` are dropped, `..`
pops (and is dropped at the root). -/
def normalizeComponents (comps : List String) : List String :=
  comps.foldl (fun stack c =>
    if c = "" ∨ c = "." then stack
    else if c = ".." then stack.dropLast
    else stack ++ [c]) []

/-- Joins path components with `/`. -/
def joinComponents : List String → String
  | [] => ""
  | [c] => c
  | c :: rest => c ++ "/" ++ joinComponents rest

/-- Normalization of an absolute posix path. -/
def normalizeAbs (p : String) : String :=
  "/" ++ joinComponents (normalizeComponents ((splitChar '/' p.data).map String.mk))

/-- Models Node `path.resolve(p)` (posix) for an absolute `p`; the
embedded inputs keep `projectPath` absolute, so the process working
directory (which Node would consult for relative arguments) plays no
role. -/
def nodeResolve1 (p : String) : String := normalizeAbs p

/-- The worktree-path resolution of `findWorktreeForBranch`:
`path.isAbsolute(currentPath) ? path.resolve(currentPath) :
path.resolve(projectPath, currentPath)` (for absolute `projectPath`). -/
def resolveRecordedPath (projectPath currentPath : String) : String :=
  if isAbsolutePath currentPath then nodeResolve1 currentPath
  else nodeResolve1 (projectPath ++ "/" ++ currentPath)

/-- `line.replace('refs/heads/', '')`: removes the first occurrence of
the pattern, if any. -/
def removeFirstOcc (pat : List Char) : List Char → List Char
  | [] => []
  | c :: cs =>
      if strPrefixOf pat (c :: cs) then (c :: cs).drop pat.length
      else c :: removeFirstOcc pat cs

/-- The branch name a porcelain line records: for a `branch ` line, the
text after the marker with the first `refs/heads/` removed. -/
def branchNameOf (l : String) : Option String :=
  if strPrefixOf ("branch ".data) l.data then
    some (String.mk (removeFirstOcc ("refs/heads/".data) (l.data.drop 7)))
  else none

/-- The parsing loop of `findWorktreeForBranch` over the porcelain
lines, with the nullable `currentPath`/`currentBranch` state embedded as
strings whose empty value is falsy exactly like `null`.  A `worktree `
line records the path, a `branch ` line records the stripped branch, a
blank line with both recorded either returns the resolved path on a
branch match or resets the state; the final check handles output that
does not end with a newline. -/
def findWorktreeInLines (projectPath branchName : String) :
    List String → String → String → Option String
  | [], currentPath, currentBranch =>
      if currentPath ≠ "" ∧ currentBranch ≠ "" ∧ currentBranch = branchName then
        some (resolveRecordedPath projectPath currentPath)
      else none
  | line :: rest, currentPath, currentBranch =>
      if strPrefixOf ("worktree ".data) line.data then
        findWorktreeInLines projectPath branchName rest
          (String.mk (line.data.drop 9)) currentBranch
      else if strPrefixOf ("branch ".data) line.data then
        findWorktreeInLines projectPath branchName rest currentPath
          (String.mk (removeFirstOcc ("refs/heads/".data) (line.data.drop 7)))
      else if line = "" ∧ currentPath ≠ "" ∧ currentBranch ≠ "" then
        if currentBranch = branchName then some (resolveRecordedPath projectPath currentPath)
        else findWorktreeInLines projectPath branchName rest "" ""
      else findWorktreeInLines projectPath branchName rest currentPath currentBranch

/-- `findWorktreeForBranch(projectPath, branchName)` applied to the
captured `git worktree list --porcelain` output (the `exec` failure path
returns null and is outside the pure core). -/
def findWorktreeForBranch (projectPath branchName stdout : String) : Option String :=
  findWorktreeInLines projectPath branchName
    ((splitChar '\n' stdout.data).map String.mk) "" ""

/-- `WorkDirResult`. -/
structure WorkDirResult where
  workDir : String
  worktreePath : Option String
deriving DecidableEq

/-- Truthiness of the optional `branchName` (`undefined` and `""` are
both falsy). -/
def branchTruthy : Option String → Bool
  | some s => if s = "" then false else true
  | none => false

/-- `resolveWorkDir(projectPath, branchName, useWorktrees)` applied to
the captured porcelain output: looks up the worktree only when worktrees
are enabled and a branch name is given, then resolves
`workDir = worktreePath ? path.resolve(worktreePath) :
path.resolve(projectPath)`. -/
def resolveWorkDir (projectPath : String) (branchName : Option String) (useWorktrees : Bool)
    (stdout : String) : WorkDirResult :=
  match (if useWorktrees = true ∧ branchTruthy branchName = true then
           findWorktreeForBranch projectPath (branchName.getD "") stdout
         else none) with
  | some wt => ⟨nodeResolve1 wt, some wt⟩
  | none => ⟨nodeResolve1 projectPath, none⟩

theorem strDataAppend (a b : String) : (a ++ b).data = a.data ++ b.data := rfl

theorem strMkData (s : String) : String.mk s.data = s := rfl

theorem strPrefixOf_append (p r : List Char) : strPrefixOf p (p ++ r) = true := by
  induction p with
  | nil => rfl
  | cons a ps ih => simp [strPrefixOf, ih]

theorem strPrefixOf_head_ne (a b : Char) (ps ss : List Char) (h : a ≠ b) :
    strPrefixOf (a :: ps) (b :: ss) = false := by
  simp [strPrefixOf, h]

theorem removeFirstOcc_self_append (pat r : List Char) (h : pat ≠ []) :
    removeFirstOcc pat (pat ++ r) = r := by
  match pat with
  | [] => exact absurd rfl h
  | a :: ps =>
      rw [List.cons_append, removeFirstOcc, if_pos]
      · rw [← List.cons_append, List.drop_left]
      · rw [← List.cons_append]
        exact strPrefixOf_append (a :: ps) r

/-- A branch name recorded by no `branch ` line of the listing is never
matched: the loop returns null.  The invariant allows the current branch
to coincide with the requested name only when both are empty (the falsy
initial state). -/
theorem findWorktreeInLines_none (pp b : String) :
    ∀ (lines : List String) (cp cb : String),
      (∀ l ∈ lines, branchNameOf l ≠ some b) → (cb = b → cb = "") →
      findWorktreeInLines pp b lines cp cb = none := by
  intro lines
  induction lines with
  | nil =>
    intro cp cb _ hinv
    simp only [findWorktreeInLines]
    rw [if_neg]
    rintro ⟨h1, h2, h3⟩
    exact h2 (hinv h3)
  | cons line rest ih =>
    intro cp cb hno hinv
    have hrest : ∀ l ∈ rest, branchNameOf l ≠ some b :=
      fun l hl => hno l (List.mem_cons_of_mem _ hl)
    by_cases hw : strPrefixOf ("worktree ".data) line.data = true
    · simp only [findWorktreeInLines]
      rw [if_pos hw]
      exact ih _ _ hrest hinv
    · by_cases hbr : strPrefixOf ("branch ".data) line.data = true
      · simp only [findWorktreeInLines]
        rw [if_neg hw, if_pos hbr]
        apply ih _ _ hrest
        intro heq
        exfalso
        apply hno line (List.mem_cons_self _ _)
        rw [branchNameOf, if_pos hbr, heq]
      · by_cases hbl : line = "" ∧ cp ≠ "" ∧ cb ≠ ""
        · simp only [findWorktreeInLines]
          rw [if_neg hw, if_neg hbr, if_pos hbl, if_neg]
          · exact ih _ _ hrest (fun _ => rfl)
          · intro hcb
            exact hbl.2.2 (hinv hcb)
        · simp only [findWorktreeInLines]
          rw [if_neg hw, if_neg hbr, if_neg hbl]
          exact ih _ _ hrest hinv

/-- Stepping over a `worktree ` line records the path. -/
theorem findStep_worktree (pp b line : String) (rest : List String) (cp cb : String)
    (h : strPrefixOf ("worktree ".data) line.data = true) :
    findWorktreeInLines pp b (line :: rest) cp cb =
      findWorktreeInLines pp b rest (String.mk (line.data.drop 9)) cb := by
  simp only [findWorktreeInLines]
  rw [if_pos h]

/-- Stepping over a `branch ` line records the stripped branch. -/
theorem findStep_branch (pp b line : String) (rest : List String) (cp cb : String)
    (hw : ¬ strPrefixOf ("worktree ".data) line.data = true)
    (h : strPrefixOf ("branch ".data) line.data = true) :
    findWorktreeInLines pp b (line :: rest) cp cb =
      findWorktreeInLines pp b rest cp
        (String.mk (removeFirstOcc ("refs/heads/".data) (line.data.drop 7))) := by
  simp only [findWorktreeInLines]
  rw [if_neg hw, if_pos h]

/-- A blank line that completes a record of the requested branch
returns the resolved recorded path. -/
theorem findStep_blank_found (pp b : String) (rest : List String) (cp cb : String)
    (hcp : cp ≠ "") (hcb : cb ≠ "") (hmatch : cb = b) :
    findWorktreeInLines pp b ("" :: rest) cp cb =
      some (resolveRecordedPath pp cp) := by
  simp only [findWorktreeInLines]
  rw [if_neg (by decide : ¬ strPrefixOf ("worktree ".data) ("" : String).data = true),
    if_neg (by decide : ¬ strPrefixOf ("branch ".data) ("" : String).data = true),
    if_pos ⟨trivial, hcp, hcb⟩, if_pos hmatch]

/-- The final check catches a record of the requested branch at the end
of the output. -/
theorem findStep_nil_found (pp b cp cb : String)
    (hcp : cp ≠ "") (hcb : cb ≠ "") (hmatch : cb = b) :
    findWorktreeInLines pp b [] cp cb = some (resolveRecordedPath pp cp) := by
  simp only [findWorktreeInLines]
  rw [if_pos ⟨hcp, hcb, hmatch⟩]

/-- A record `worktree <p>` / `branch refs/heads/<b>` terminated by a
blank line resolves to the recorded path. -/
theorem findWorktreeInLines_found (pp b p : String) (rest : List String)
    (hp : p ≠ "") (hb : b ≠ "") :
    findWorktreeInLines pp b
        (("worktree " ++ p) :: ("branch refs/heads/" ++ b) :: "" :: rest) "" "" =
      some (resolveRecordedPath pp p) := by
  have hw1 : strPrefixOf ("worktree ".data) ("worktree " ++ p).data = true := by
    rw [strDataAppend]; exact strPrefixOf_append _ _
  have hdrop : ("worktree " ++ p).data.drop 9 = p.data := by
    rw [strDataAppend, show (9 : Nat) = ("worktree ".data).length from rfl]
    exact List.drop_left _ _
  have hd2 : ("branch refs/heads/" ++ b).data =
      "branch ".data ++ ("refs/heads/".data ++ b.data) := by
    rw [strDataAppend,
      show ("branch refs/heads/".data) = "branch ".data ++ "refs/heads/".data from rfl]
    exact List.append_assoc _ _ _
  have hw2 : ¬ strPrefixOf ("worktree ".data) ("branch refs/heads/" ++ b).data = true := by
    have : strPrefixOf ("worktree ".data) ("branch refs/heads/" ++ b).data = false := by
      rw [hd2, show ("branch ".data) = 'b' :: "ranch ".data from rfl, List.cons_append,
        show ("worktree ".data) = 'w' :: "orktree ".data from rfl]
      exact strPrefixOf_head_ne _ _ _ _ (by decide)
    rw [this]; decide
  have hb2 : strPrefixOf ("branch ".data) ("branch refs/heads/" ++ b).data = true := by
    rw [hd2]; exact strPrefixOf_append _ _
  have hdrop2 : ("branch refs/heads/" ++ b).data.drop 7 = "refs/heads/".data ++ b.data := by
    rw [hd2, show (7 : Nat) = ("branch ".data).length from rfl]
    exact List.drop_left _ _
  have hrm : removeFirstOcc ("refs/heads/".data) ("refs/heads/".data ++ b.data) = b.data :=
    removeFirstOcc_self_append _ _ (by decide)
  rw [findStep_worktree pp b _ _ "" "" hw1, hdrop, strMkData p,
    findStep_branch pp b _ _ p "" hw2 hb2, hdrop2, hrm, strMkData b,
    findStep_blank_found pp b rest p b hp hb rfl]

/-- The same record terminated by the end of the output (no trailing
blank line) is caught by the final check. -/
theorem findWorktreeInLines_found_eof (pp b p : String)
    (hp : p ≠ "") (hb : b ≠ "") :
    findWorktreeInLines pp b
        [("worktree " ++ p), ("branch refs/heads/" ++ b)] "" "" =
      some (resolveRecordedPath pp p) := by
  have hw1 : strPrefixOf ("worktree ".data) ("worktree " ++ p).data = true := by
    rw [strDataAppend]; exact strPrefixOf_append _ _
  have hdrop : ("worktree " ++ p).data.drop 9 = p.data := by
    rw [strDataAppend, show (9 : Nat) = ("worktree ".data).length from rfl]
    exact List.drop_left _ _
  have hd2 : ("branch refs/heads/" ++ b).data =
      "branch ".data ++ ("refs/heads/".data ++ b.data) := by
    rw [strDataAppend,
      show ("branch refs/heads/".data) = "branch ".data ++ "refs/heads/".data from rfl]
    exact List.append_assoc _ _ _
  have hw2 : ¬ strPrefixOf ("worktree ".data) ("branch refs/heads/" ++ b).data = true := by
    have : strPrefixOf ("worktree ".data) ("branch refs/heads/" ++ b).data = false := by
      rw [hd2, show ("branch ".data) = 'b' :: "ranch ".data from rfl, List.cons_append,
        show ("worktree ".data) = 'w' :: "orktree ".data from rfl]
      exact strPrefixOf_head_ne _ _ _ _ (by decide)
    rw [this]; decide
  have hb2 : strPrefixOf ("branch ".data) ("branch refs/heads/" ++ b).data = true := by
    rw [hd2]; exact strPrefixOf_append _ _
  have hdrop2 : ("branch refs/heads/" ++ b).data.drop 7 = "refs/heads/".data ++ b.data := by
    rw [hd2, show (7 : Nat) = ("branch ".data).length from rfl]
    exact List.drop_left _ _
  have hrm : removeFirstOcc ("refs/heads/".data) ("refs/heads/".data ++ b.data) = b.data :=
    removeFirstOcc_self_append _ _ (by decide)
  rw [findStep_worktree pp b _ _ "" "" hw1, hdrop, strMkData p,
    findStep_branch pp b _ _ p "" hw2 hb2, hdrop2, hrm, strMkData b,
    findStep_nil_found pp b p b hp hb rfl]

/-- C5: a porcelain record `worktree <p>` / `branch refs/heads/<b>`
terminated by a blank line or by the end of the output makes
`findWorktreeForBranch` return the absolute resolution of `p` (resolved
against `projectPath` when `p` is relative); a branch name recorded by
no line of the listing yields null.  The concrete conjuncts instantiate
the spec's example: `/a/b`-absolute, `wt`-relative, and the unrecorded
`feat-y`. -/
theorem findWorktreeForBranch_spec (pp b p : String) (rest : List String)
    (hp : p ≠ "") (hb : b ≠ "") :
    findWorktreeInLines pp b
        (("worktree " ++ p) :: ("branch refs/heads/" ++ b) :: "" :: rest) "" "" =
      some (resolveRecordedPath pp p) ∧
    findWorktreeInLines pp b [("worktree " ++ p), ("branch refs/heads/" ++ b)] "" "" =
      some (resolveRecordedPath pp p) ∧
    (∀ lines : List String, (∀ l ∈ lines, branchNameOf l ≠ some b) →
      findWorktreeInLines pp b lines "" "" = none) ∧
    findWorktreeForBranch "/p" "feat-x" "worktree /a/b\nbranch refs/heads/feat-x\n\n" =
      some "/a/b" ∧
    findWorktreeForBranch "/p" "feat-x" "worktree wt\nbranch refs/heads/feat-x\n\n" =
      some "/p/wt" ∧
    findWorktreeForBranch "/p" "feat-y" "worktree /a/b\nbranch refs/heads/feat-x\n\n" =
      none := by
  refine ⟨findWorktreeInLines_found pp b p rest hp hb,
    findWorktreeInLines_found_eof pp b p hp hb,
    ?_, by decide, by decide, by decide⟩
  intro lines hno
  exact findWorktreeInLines_none pp b lines "" "" hno (fun _ => rfl)

/-- C5 witness: the general conjuncts instantiated at the spec's example
record. -/
theorem findWorktreeForBranch_spec_witness :
    (("/a/b" : String) ≠ "" ∧ ("feat-x" : String) ≠ "") ∧
    findWorktreeInLines "/p" "feat-x"
        (("worktree " ++ "/a/b") :: ("branch refs/heads/" ++ "feat-x") :: "" :: ["junk"])
        "" "" = some (resolveRecordedPath "/p" "/a/b") ∧
    findWorktreeInLines "/p" "feat-x"
        [("worktree " ++ "/a/b"), ("branch refs/heads/" ++ "feat-x")] "" "" =
      some (resolveRecordedPath "/p" "/a/b") ∧
    findWorktreeInLines "/p" "feat-x"
        ["worktree /a/b", "branch refs/heads/feat-y", ""] "" "" = none := by
  have h := findWorktreeForBranch_spec "/p" "feat-x" "/a/b" ["junk"]
    (by decide) (by decide)
  exact ⟨⟨by decide, by decide⟩, h.1, h.2.1,
    h.2.2.1 ["worktree /a/b", "branch refs/heads/feat-y", ""] (by decide)⟩

/-- C7 counterexample: with worktrees disabled, `resolveWorkDir` returns
`workDir = path.resolve(projectPath)`, which differs from `projectPath`
itself for the non-normalized absolute path `/p/`. -/
theorem resolveWorkDir_counterexample :
    resolveWorkDir "/p/" none false "" = ⟨"/p", none⟩ ∧ ("/p" : String) ≠ "/p/" := by
  decide

/-- C7 (amended): `resolveWorkDir` returns
`workDir = path.resolve(projectPath)` — equal to `projectPath` whenever
that path is already normalized — and `worktreePath = null` whenever
`useWorktrees` is false or `branchName` is absent (or empty, which is
equally falsy), and likewise when no worktree matching `branchName` is
found; the resolver is a total function, so a missing or unmatched
worktree never throws or aborts. -/
theorem resolveWorkDir_fallback (pp : String) (b : Option String) (u : Bool) (out : String)
    (h : u = false ∨ branchTruthy b = false) :
    resolveWorkDir pp b u out = ⟨nodeResolve1 pp, none⟩ ∧
    (∀ b' out', branchTruthy (some b') = true →
      findWorktreeForBranch pp b' out' = none →
      resolveWorkDir pp (some b') true out' = ⟨nodeResolve1 pp, none⟩) := by
  constructor
  · have hcond : ¬ (u = true ∧ branchTruthy b = true) := by
      rcases h with h | h <;> simp [h]
    rw [resolveWorkDir, if_neg hcond]
  · intro b' out' hb' hnone
    have hcond : (true = true ∧ branchTruthy (some b') = true) := ⟨rfl, hb'⟩
    rw [resolveWorkDir, if_pos hcond]
    have : (some b').getD "" = b' := rfl
    rw [this, hnone]

/-- C7 witness: worktrees disabled on `/p`, and an unmatched branch with
worktrees enabled. -/
theorem resolveWorkDir_fallback_witness :
    ((false = false ∨ branchTruthy (some "feat-x") = false) ∧
      resolveWorkDir "/p" (some "feat-x") false "" = ⟨nodeResolve1 "/p", none⟩) ∧
    (branchTruthy (some "feat-z") = true ∧
      findWorktreeForBranch "/p" "feat-z" "worktree /a/b\nbranch refs/heads/feat-x\n\n" =
        none ∧
      resolveWorkDir "/p" (some "feat-z") true
          "worktree /a/b\nbranch refs/heads/feat-x\n\n" =
        ⟨nodeResolve1 "/p", none⟩) := by
  have h := resolveWorkDir_fallback "/p" (some "feat-x") false "" (Or.inl rfl)
  refine ⟨⟨Or.inl rfl, h.1⟩, by decide, by decide, ?_⟩
  exact h.2 "feat-z" "worktree /a/b\nbranch refs/heads/feat-x\n\n" (by decide) (by decide)
